import Mathlib

/-!
Verification of the NBA statistics acquisition/cleaning pipeline
(`src/data_acquisition.py`, `src/data_cleaning.py`).

The Python code manipulates pandas DataFrames.  We embed the relevant
operations shallowly: a table is a `List` of rows, a row is a structure of
the fields the verified properties speak about, and missing values (NaN /
None) are `Option.none`.  Python string primitives (`split`, `strip`,
`in`, `startswith`, `int(...)`) are modelled by executable functions over
`List Char` so that every definition evaluates by `decide`.
-/

/-! ## String primitives (models of the Python string operations used) -/

/-- Model of Python `str.split(sep)` for a single-character separator:
splits on every occurrence, keeping empty pieces. -/
def splitOnChar (sep : Char) : List Char → List (List Char)
  | [] => [[]]
  | c :: t =>
    if c == sep then [] :: splitOnChar sep t
    else
      match splitOnChar sep t with
      | [] => [[c]]
      | h :: r => (c :: h) :: r

/-- ASCII whitespace recognised by Python `str.strip()`. -/
def isSpaceCh (c : Char) : Bool :=
  c == ' ' || c == '\t' || c == '\n' || c == '\r' || c == '\x0b' || c == '\x0c'

/-- Model of Python `str.strip()`. -/
def trimChars (l : List Char) : List Char :=
  ((l.dropWhile isSpaceCh).reverse.dropWhile isSpaceCh).reverse

/-- Substring search over character lists. -/
def subOccurs (p : List Char) : List Char → Bool
  | [] => p.isPrefixOf []
  | c :: t => p.isPrefixOf (c :: t) || subOccurs p t

/-- Model of Python `pat in s` (substring containment). -/
def strContains (s pat : String) : Bool := subOccurs pat.data s.data

/-- Model of Python `s.startswith(pre)`. -/
def pyStartsWith (s pre : String) : Bool := pre.data.isPrefixOf s.data

/-- Model of Python `s.endswith(suf)`. -/
def pyEndsWith (s suf : String) : Bool := suf.data.isSuffixOf s.data

/-- Numeric value of a nonempty all-digit character list, `none` otherwise. -/
def digitsVal (l : List Char) : Option Nat :=
  if l.isEmpty || !(l.all Char.isDigit) then none
  else some (l.foldl (fun n c => n * 10 + (c.toNat - 48)) 0)

/-- Model of Python `int(s)`: optional surrounding whitespace, optional
sign, decimal digits.  (Exotic forms such as underscore separators or
non-ASCII digits are not modelled.) -/
def parsePyInt (s : String) : Option Int :=
  match trimChars s.data with
  | '-' :: rest => (digitsVal rest).map (fun n => -(n : Int))
  | '+' :: rest => (digitsVal rest).map (fun n => (n : Int))
  | l => (digitsVal l).map (fun n => (n : Int))

/-- Lexicographic strict order on character lists by code point —
Python's `<` on strings. -/
def charListLt : List Char → List Char → Bool
  | [], [] => false
  | [], _ :: _ => true
  | _ :: _, [] => false
  | a :: as, b :: bs =>
    if a.toNat < b.toNat then true
    else if b.toNat < a.toNat then false
    else charListLt as bs

/-- Insert a string into a sorted list, keeping ascending order. -/
def insertSorted (x : String) : List String → List String
  | [] => [x]
  | y :: ys => if charListLt x.data y.data then x :: y :: ys else y :: insertSorted x ys

/-- Model of Python `sorted` on a list of strings (insertion sort;
Python compares strings by code points). -/
def sortStrings (l : List String) : List String := l.foldr insertSorted []

/-! ## Data model

A row of the (merged) statistics tables, restricted to the fields the
verified claims are about: `Player`, `Player_URL` (the identifier),
`Season` (the period label, always populated by the scraper) and `Team`.
Cells that can be missing (pandas NaN) are `Option`s. -/

structure CRow where
  player : Option String
  url : Option String
  season : String
  team : Option String
deriving DecidableEq, Repr

/-! ## Multi-Group Collapser — `handle_multi_team_players` (data_cleaning.py:123-182)

The Python code groups the frame by `['Player_URL', 'Season']` (pandas
`groupby` drops groups whose key contains NaN, so rows with a null
`Player_URL` belong to no group and are never dropped), then for each
group of size ≥ 2 looks for a row whose `Team` string contains `'TM'`
(`tm_row` keeps the *last* such index), collects the distinct nonempty
non-marker team strings in iteration order, rewrites the marker row's
team and drops the remaining rows of the group; without a marker it keeps
the group's first row.  The output is the input sequence minus the
dropped rows, i.e. each row survives iff its group's rule selects it. -/

/-- Python `'TM' in (str(team) if notna else '')`. -/
def isMarker (team : Option String) : Bool := strContains (team.getD "") "TM"

/-- The `individual_teams` list collected while iterating a group:
distinct, nonempty, non-marker team strings in row order. -/
def indivTeams (g : List CRow) : List String :=
  g.foldl
    (fun acc r =>
      let t := r.team.getD ""
      if isMarker r.team then acc
      else if t != "" && !(acc.contains t) then acc ++ [t]
      else acc)
    []

/-- `f"{tm_team_value} ({', '.join(sorted(individual_teams))})"`, applied
only when `individual_teams` is nonempty. -/
def rewriteTeam (orig : Option String) (teams : List String) : Option String :=
  if teams.isEmpty then orig
  else some ((orig.getD "") ++ " (" ++ String.intercalate ", " (sortStrings teams) ++ ")")

/-- Team rewriting applied to the marker row of a group `g`. -/
def rewriteRow (r : CRow) (g : List CRow) : CRow :=
  { r with team := rewriteTeam r.team (indivTeams g) }

/-- Rows paired with their positional index (model of `df.iterrows()`
over a default `RangeIndex`, starting at `n`). -/
def enumF : Nat → List CRow → List (Nat × CRow)
  | _, [] => []
  | n, a :: t => (n, a) :: enumF (n + 1) t

/-- Key test for the `(Player_URL, Season)` group of a non-null url `u`. -/
def sameKeyB (u s : String) (r : CRow) : Bool := r.url == some u && r.season == s

/-- The indexed rows of the `(some u, s)` group. -/
def keyGroup (rows : List CRow) (u s : String) : List (Nat × CRow) :=
  (enumF 0 rows).filter (fun q => sameKeyB u s q.2)

/-- Decision for one indexed row: `some r` keeps (the possibly rewritten)
`r`, `none` drops the row.  Mirrors the group rules described above. -/
def collapseStep (idx : List (Nat × CRow)) (p : Nat × CRow) : Option CRow :=
  match p.2.url with
  | none => some p.2
  | some u =>
    let g := idx.filter (fun q => sameKeyB u p.2.season q.2)
    if g.length == 1 then some p.2
    else
      match (g.filter (fun q => isMarker q.2.team)).getLast? with
      | some tm => if p.1 == tm.1 then some (rewriteRow p.2 (g.map Prod.snd)) else none
      | none =>
        match g.head? with
        | some h => if p.1 == h.1 then some p.2 else none
        | none => none

/-- `handle_multi_team_players` (data_cleaning.py:123-182). -/
def handle_multi_team_players (rows : List CRow) : List CRow :=
  (enumF 0 rows).filterMap (collapseStep (enumF 0 rows))

/-! ## Dataset Merger — `merge_per_game_and_advanced` (data_cleaning.py:185-254) -/

/-- `remove_league_average` (data_cleaning.py:11-23): keep rows whose
`Player` cell differs from the literal `'League Average'` (a NaN player
compares unequal, hence is kept, as in pandas). -/
def remove_league_average (rows : List CRow) : List CRow :=
  rows.filter (fun r => r.player != some "League Average")

/-- The merge key `(Player_URL, Season, Team)` of a row. -/
def mkey (r : CRow) : Option String × String × Option String := (r.url, r.season, r.team)

/-- Key equality used by `pd.merge(..., on=['Player_URL','Season','Team'])`;
pandas matches NaN keys to NaN keys, which `Option` equality reproduces. -/
def keysMatchB (a b : CRow) : Bool := mkey a == mkey b

/-- Row pairs produced by the inner merge: every key-matching pair, in
left-table order (pandas inner join row multiset). -/
def innerJoin : List CRow → List CRow → List (CRow × CRow)
  | [], _ => []
  | a :: as, bs => ((bs.filter (keysMatchB a)).map (fun b => (a, b))) ++ innerJoin as bs

/-- Number of distinct keys occurring in both tables. -/
def sharedKeyCount (A B : List CRow) : Nat :=
  ((A.map mkey).dedup.filter (fun k => (B.map mkey).contains k)).length

/-- `merge_per_game_and_advanced` (data_cleaning.py:185-254) at row level:
both inputs are cleaned of `'League Average'` rows, inner-joined on
`(Player_URL, Season, Team)`, and the multi-team collapse is applied.
A merged row's `Player`/key fields all come from the per-game (left) side:
the keys agree across the pair by construction and for duplicated columns
the code keeps the per-game version.  `parse_awards_column` and the `Rk`
drop only touch award/`Rk` columns, hence are the identity on the fields
modelled by `CRow`. -/
def merge_per_game_and_advanced (A B : List CRow) : List CRow :=
  handle_multi_team_players
    ((innerJoin (remove_league_average A) (remove_league_average B)).map Prod.fst)

/-! ### Column order of the merge (data_cleaning.py:191-235)

`pd.merge(per_game, advanced, on=keys, suffixes=('_per_game','_advanced'))`
lays out the left table's columns in their original order (overlapping
non-key columns suffixed), followed by the right table's non-key columns
(likewise suffixed when overlapping).  The subsequent loop drops each
`<col>_advanced` and renames `<col>_per_game` back to `<col>` in place;
it iterates a Python `set`, but dropping/renaming by label commutes, so
any fixed iteration order yields the same result. -/

/-- The merge keys of `merge_per_game_and_advanced`. -/
def mergeKeys : List String := ["Player_URL", "Season", "Team"]

/-- `common_cols = (set(A) & set(B)) - set(merge_keys)` as the sublist of
`A`'s columns (a set in Python; only membership and a traversal order are
used). -/
def commonCols (aCols b1 : List String) : List String :=
  aCols.filter (fun c => b1.contains c && !(mergeKeys.contains c))

/-- Suffix a column name when it belongs to the overlap `cs`. -/
def sfxMark (cs : List String) (t : String) (c : String) : String :=
  if cs.contains c then c ++ t else c

/-- Column layout of the raw `pd.merge` result. -/
def pandasMergeColumns (aCols b1 : List String) : List String :=
  let cs := commonCols aCols b1
  aCols.map (sfxMark cs "_per_game")
    ++ (b1.filter (fun c => !(mergeKeys.contains c))).map (sfxMark cs "_advanced")

/-- One iteration of the deduplication loop: if both suffixed columns are
present, drop `<c>_advanced` and rename `<c>_per_game` to `<c>`. -/
def dedupStep (acc : List String) (c : String) : List String :=
  if acc.contains (c ++ "_per_game") && acc.contains (c ++ "_advanced") then
    (acc.erase (c ++ "_advanced")).map (fun x => if x == c ++ "_per_game" then c else x)
  else acc

/-- Column order produced by `merge_per_game_and_advanced` up to the
duplicate-column cleanup (the `Awards` column is removed from the
advanced table first, data_cleaning.py:192-193). -/
def merge_columns (aCols bCols : List String) : List String :=
  let b1 := bCols.erase "Awards"
  (commonCols aCols b1).foldl dedupStep (pandasMergeColumns aCols b1)

/-- Following the specification's wording (section 4.6), for comparison
with `merge_columns`: join keys first, then A's remaining columns, then
B's unique columns, each in original within-table order. -/
def specMergeColumnOrder (aCols bCols : List String) : List String :=
  let b1 := bCols.erase "Awards"
  mergeKeys ++ aCols.filter (fun c => !(mergeKeys.contains c))
    ++ b1.filter (fun c => !(mergeKeys.contains c) && !(aCols.contains c))

/-! ## Award Field Expander — `parse_awards_column` (data_cleaning.py:26-120)

The awards column is a list of optional free-text cells.  We model, for a
given base award name, the classification (`simple` vs `voting`) and the
per-row value of that award's output column. -/

/-- The tokens contributed by one cell: Python skips NaN cells and cells
that strip to the empty string, splits on `','`, strips each piece, and
ignores empty pieces at every use site. -/
def rowTokens : Option String → List String
  | none => []
  | some s =>
    if (trimChars s.data).isEmpty then []
    else ((splitOnChar ',' s.data).map (fun l => (trimChars l).asString)).filter
      (fun t => t != "")

/-- All tokens of the whole column. -/
def collTokens (col : List (Option String)) : List String :=
  (col.map rowTokens).flatten

/-- `award.split('-')` (no stripping; the token was already stripped). -/
def dashSplit (t : String) : List String := (splitOnChar '-' t.data).map List.asString

/-- Python `'-' in award_entry`. -/
def hasDash (t : String) : Bool := t.data.contains '-'

/-- Base award name of a token: the part before the first `'-'`, the
whole token when there is no dash (`award.split('-')[0]`). -/
def baseOf (t : String) : String := (dashSplit t).headD ""

/-- The set `all_awards` of base award names seen anywhere in the column
(a Python set; membership is all that is used). -/
def allBases (col : List (Option String)) : List String :=
  ((collTokens col).map baseOf).dedup

/-- `has_voting`: some token anywhere in the column starts with
`award + '-'`. -/
def hasVoting (col : List (Option String)) (award : String) : Bool :=
  (collTokens col).any (fun t => pyStartsWith t (award ++ "-"))

/-- `voting_awards`: base names with a ranked occurrence somewhere. -/
def voting_awards (col : List (Option String)) : List String :=
  (allBases col).filter (fun a => hasVoting col a)

/-- `simple_awards`: base names never seen with a rank. -/
def simple_awards (col : List (Option String)) : List String :=
  (allBases col).filter (fun a => !(hasVoting col a))

/-- Cell values of the generated award columns: `none` models the `None`
default of voting columns, strings model `''`/`'yes'`/raw rank tokens,
integers model parsed votes. -/
inductive Cell where
  | null : Cell
  | intVal : Int → Cell
  | strVal : String → Cell
deriving DecidableEq, Repr

/-- Effect of one token on the `<award>_VOTING` column: a dashed token
whose base equals `award`, is classified as voting, and has a nonempty
part after the first dash, writes the parsed vote (or, if `int()` fails,
the raw part); every other token leaves the cell unchanged. -/
def votingEffect (voting : List String) (award : String) (t : String) : Option Cell :=
  if hasDash t then
    match (dashSplit t).get? 1 with
    | some num =>
      if (dashSplit t).headD "" == award && voting.contains ((dashSplit t).headD "")
          && num != "" then
        some (match parsePyInt num with
              | some n => Cell.intVal n
              | none => Cell.strVal num)
      else none
    | none => none
  else none

/-- Effect of one token on the plain `<award>` column of a simple award. -/
def simpleEffect (simple : List String) (award : String) (t : String) : Option Cell :=
  if hasDash t then none
  else if t == award && simple.contains t then some (Cell.strVal "yes") else none

/-- Fold the per-token effects over a row's tokens (later tokens
overwrite earlier ones, as the Python row loop does). -/
def applyEffects (eff : String → Option Cell) (toks : List String) (init : Cell) : Cell :=
  toks.foldl (fun acc t => (eff t).getD acc) init

/-- Value of the `<award>_VOTING` column for one cell of the awards
column (default `None`). -/
def votingCell (col : List (Option String)) (award : String) (o : Option String) : Cell :=
  applyEffects (votingEffect (voting_awards col) award) (rowTokens o) Cell.null

/-- The whole `<award>_VOTING` output column produced by
`parse_awards_column` for a voting award. -/
def parse_awards_voting_col (col : List (Option String)) (award : String) : List Cell :=
  col.map (votingCell col award)

/-- Value of the plain `<award>` column for one cell (default `''`). -/
def simpleCell (col : List (Option String)) (award : String) (o : Option String) : Cell :=
  applyEffects (simpleEffect (simple_awards col) award) (rowTokens o) (Cell.strVal "")

/-! ## Row Annotator — link assignment in `scrape_per_game_stats_from_url`
(data_acquisition.py:150-181) and `scrape_advanced_stats_from_url`
(data_acquisition.py:262-291)

Given the parsed table and the extracted player links, the code: when the
link list is empty, adds no `Player_URL` column at all; otherwise it
initialises the column to `None`, scans rows from the top setting
`start_idx` past header-looking rows until the first data row, then
assigns `links[0], links[1], ...` to consecutive row positions from
`start_idx` while links remain. -/

/-- A scraped row, reduced to the `Rk` cell that the header test reads. -/
structure ARow where
  rk : Option String
deriving DecidableEq, Repr

/-- `pd.isna(row.get('Rk')) or str(row.get('Rk')).strip() == 'Rk'`. -/
def isHeaderRow (r : ARow) : Bool :=
  match r.rk with
  | none => true
  | some v => (trimChars v.data).asString == "Rk"

/-- The `start_idx` scan: `start = idx + 1` after each leading header
row, stopping at the first non-header row. -/
def startScan : List ARow → Nat → Nat → Nat
  | [], _, start => start
  | r :: rest, idx, start =>
    if isHeaderRow r then startScan rest (idx + 1) (idx + 1) else start

/-- The assignment loop: starting at position `i`, write the links to
consecutive positions of the column while positions remain. -/
def fillFrom (vals : List (Option String)) (i : Nat) (links : List String) :
    List (Option String) :=
  match links with
  | [] => vals
  | l :: ls => if i < vals.length then fillFrom (vals.set i (some l)) (i + 1) ls else vals

/-- The `Player_URL` column added by the scraper: `none` when no links
were extracted (the column is never created in that case), otherwise the
all-`None` column with the links filled in from `start_idx`. -/
def annotate (rows : List ARow) (links : List String) : Option (List (Option String)) :=
  if links.isEmpty then none
  else some (fillFrom (List.replicate rows.length none) (startScan rows 0 0) links)

/-! ## Link Extractor — `_extract_player_links` (data_acquisition.py:56-90)

The HTML document is modelled as a sequence of nodes: hyperlinks outside
any table, and tables carrying an id and the `href`s of the hyperlinks
they contain.  The Python code first locates a table (by the given id, or
the first match among `['per_game_stats', 'advanced']`), returns an empty
series when none is found, and otherwise collects the matching links *of
that table only*. -/

inductive HtmlNode where
  | link : String → HtmlNode
  | table : String → List String → HtmlNode
deriving DecidableEq, Repr

/-- `'/players/' in href and href.endswith('.html')`. -/
def playerLinkPattern (href : String) : Bool :=
  strContains href "/players/" && pyEndsWith href ".html"

/-- `self.base_url`. -/
def baseUrl : String := "https://www.basketball-reference.com"

/-- URL absolutisation: prefix the base url to root-relative hrefs,
keep other hrefs verbatim. -/
def absolutize (base href : String) : String :=
  if pyStartsWith href "/" then base ++ href else href

/-- `soup.find('table', id=t)`: hrefs of the first table with id `t`. -/
def findTableById (doc : List HtmlNode) (t : String) : Option (List String) :=
  doc.findSome? (fun n =>
    match n with
    | HtmlNode.table i hs => if i == t then some hs else none
    | HtmlNode.link _ => none)

/-- Table lookup of `_extract_player_links`: the given id, or the first
of the candidate ids `['per_game_stats', 'advanced']` that matches. -/
def findTable (doc : List HtmlNode) (tid : Option String) : Option (List String) :=
  match tid with
  | some t => findTableById doc t
  | none => (findTableById doc "per_game_stats").orElse (fun _ => findTableById doc "advanced")

/-- `_extract_player_links` (data_acquisition.py:56-90). -/
def extract_player_links (doc : List HtmlNode) (tid : Option String) : List String :=
  match findTable doc tid with
  | none => []
  | some hs => (hs.filter playerLinkPattern).map (absolutize baseUrl)

/-- Following the specification's wording (section 4.2), for comparison
with `extract_player_links`: scan the whole document, no table context,
and return every matching hyperlink in document order. -/
def specExtractAllLinks (doc : List HtmlNode) : List String :=
  ((doc.map (fun n =>
      match n with
      | HtmlNode.link h => [h]
      | HtmlNode.table _ hs => hs)).flatten.filter playerLinkPattern).map
    (absolutize baseUrl)

/-! ## Helper lemmas: the annotator loops -/

theorem startScan_eq (rows : List ARow) :
    ∀ n : Nat, startScan rows n n = n + (rows.takeWhile isHeaderRow).length := by
  induction rows with
  | nil => intro n; simp [startScan]
  | cons r rest ih =>
    intro n
    by_cases h : isHeaderRow r
    · simp only [startScan, h, if_true, List.takeWhile_cons, List.length_cons]
      rw [ih (n + 1)]
      omega
    · simp only [startScan, h, if_false, List.takeWhile_cons]
      simp [h]

theorem fillFrom_length (links : List String) :
    ∀ (vals : List (Option String)) (i : Nat), (fillFrom vals i links).length = vals.length := by
  induction links with
  | nil => intro vals i; rfl
  | cons l ls ih =>
    intro vals i
    simp only [fillFrom]
    by_cases h : i < vals.length
    · simp only [h, if_true]
      rw [ih]
      simp
    · simp [h]

theorem fillFrom_getElem_lt (links : List String) :
    ∀ (vals : List (Option String)) (i j : Nat), j < i →
      (fillFrom vals i links)[j]? = vals[j]? := by
  induction links with
  | nil => intro vals i j _; rfl
  | cons l ls ih =>
    intro vals i j hj
    simp only [fillFrom]
    by_cases h : i < vals.length
    · simp only [h, if_true]
      rw [ih _ (i + 1) j (by omega)]
      exact List.getElem?_set_ne (by omega)
    · simp [h]

theorem fillFrom_getElem_ge (links : List String) :
    ∀ (vals : List (Option String)) (i j : Nat), i + links.length ≤ j →
      (fillFrom vals i links)[j]? = vals[j]? := by
  induction links with
  | nil => intro vals i j _; rfl
  | cons l ls ih =>
    intro vals i j hj
    simp only [fillFrom]
    by_cases h : i < vals.length
    · simp only [h, if_true]
      rw [ih _ (i + 1) j (by simp at hj ⊢; omega)]
      exact List.getElem?_set_ne (by simp at hj; omega)
    · simp [h]

theorem fillFrom_getElem_assigned (links : List String) :
    ∀ (vals : List (Option String)) (i k : Nat) (l : String),
      i + k < vals.length → links[k]? = some l →
      (fillFrom vals i links)[i + k]? = some (some l) := by
  induction links with
  | nil => intro vals i k l _ hk; simp at hk
  | cons x ls ih =>
    intro vals i k l hik hk
    have hi : i < vals.length := by omega
    simp only [fillFrom, hi, if_true]
    cases k with
    | zero =>
      simp only [List.getElem?_cons_zero, Option.some.injEq] at hk
      subst hk
      rw [fillFrom_getElem_lt ls _ (i + 1) (i + 0) (by omega)]
      simp only [Nat.add_zero]
      rw [List.getElem?_set_self hi]
    | succ k' =>
      simp only [List.getElem?_cons_succ] at hk
      have : i + (k' + 1) = (i + 1) + k' := by omega
      rw [this]
      exact ih _ (i + 1) k' l (by simp; omega) hk

/-! ## Claim C3 — header-row skipping in the Row Annotator -/

/-- C3 (counterexample): the claim says spurious header rows are skipped
wherever they occur, without consuming an identifier.  In the code only
the leading run is skipped: for rows `[data(Rk=1), header(Rk=NaN),
data(Rk=2)]` and links `[L1, L2]`, the mid-table header row (a spurious
header row by the code's own test) is assigned identifier `L2`, and the
following data row gets none. -/
theorem annotate_midtable_header_counterexample :
    annotate [ARow.mk (some "1"), ARow.mk none, ARow.mk (some "2")] ["L1", "L2"]
        = some [some "L1", some "L2", none]
      ∧ isHeaderRow (ARow.mk none) = true
      ∧ isHeaderRow (ARow.mk (some "2")) = false := by
  decide

/-- C3 (amended): the Row Annotator skips only the leading run of
spurious header rows without consuming identifiers; from the first
non-header row on, identifiers are assigned to consecutive row positions
regardless of the row's content (a mid-table header row consumes one),
with null once the identifiers are exhausted. -/
theorem annotate_leading_prefix_amended (rows : List ARow) (links : List String)
    (h : links ≠ []) :
    ∃ vals, annotate rows links = some vals ∧ vals.length = rows.length ∧
      startScan rows 0 0 = (rows.takeWhile isHeaderRow).length ∧
      (∀ j, j < (rows.takeWhile isHeaderRow).length → vals[j]? = some none) ∧
      (∀ j, (rows.takeWhile isHeaderRow).length ≤ j → j < rows.length →
        vals[j]? = some links[j - (rows.takeWhile isHeaderRow).length]?) := by
  have hs : startScan rows 0 0 = (rows.takeWhile isHeaderRow).length := by
    simpa using startScan_eq rows 0
  have htw : (rows.takeWhile isHeaderRow).length ≤ rows.length :=
    (List.takeWhile_sublist isHeaderRow).length_le
  have hemp : links.isEmpty = false := by
    cases links with
    | nil => exact absurd rfl h
    | cons a t => rfl
  refine ⟨fillFrom (List.replicate rows.length none) (startScan rows 0 0) links,
    by rw [annotate, hemp]; rfl, ?_, hs, ?_, ?_⟩
  · rw [fillFrom_length]; simp
  · intro j hj
    rw [hs, fillFrom_getElem_lt links _ _ j hj, List.getElem?_replicate]
    simp [Nat.lt_of_lt_of_le hj htw]
  · intro j h1 h2
    rw [hs]
    rcases Nat.lt_or_ge (j - (rows.takeWhile isHeaderRow).length) links.length with hk | hk
    · obtain ⟨l, hl⟩ : ∃ l, links[j - (rows.takeWhile isHeaderRow).length]? = some l := by
        exact ⟨links[j - (rows.takeWhile isHeaderRow).length], List.getElem?_eq_getElem hk⟩
      rw [hl]
      have hj : j = (rows.takeWhile isHeaderRow).length
          + (j - (rows.takeWhile isHeaderRow).length) := by omega
      rw [hj]
      exact fillFrom_getElem_assigned links _ _ _ l (by simp; omega) hl
    · have hnone : links[j - (rows.takeWhile isHeaderRow).length]? = none :=
        List.getElem?_eq_none hk
      rw [hnone, fillFrom_getElem_ge links _ _ j (by omega), List.getElem?_replicate]
      simp [h2]

/-- C3 (amended, witness): the amended theorem applied at the concrete
table `[header, data, data]` with one link assigns the link to the first
data row and null to the second. -/
theorem annotate_leading_prefix_amended_witness :
    ∃ vals, annotate [ARow.mk none, ARow.mk (some "1"), ARow.mk (some "2")] ["L1"]
        = some vals ∧ vals[0]? = some none ∧ vals[1]? = some (some "L1")
      ∧ vals[2]? = some none := by
  obtain ⟨vals, h1, -, -, h4, h5⟩ :=
    annotate_leading_prefix_amended
      [ARow.mk none, ARow.mk (some "1"), ARow.mk (some "2")] ["L1"] (by decide)
  have e0 : vals[0]? = some none := by
    have := h4 0 (by decide)
    simpa using this
  have e1 : vals[1]? = some (some "L1") := by
    have := h5 1 (by decide) (by decide)
    simpa using this
  have e2 : vals[2]? = some none := by
    have := h5 2 (by decide) (by decide)
    simpa using this
  exact ⟨vals, h1, e0, e1, e2⟩

/-! ## Claim C8 — identifier exhaustion in the Row Annotator -/

/-- C8 (counterexample): with one data row and zero extracted
identifiers (more data rows than identifiers, as the claim's hypothesis
allows), the code adds no identifier column at all (`none`) instead of a
column of null identifiers. -/
theorem annotate_exhaustion_counterexample :
    annotate [ARow.mk (some "1")] [] = none
      ∧ annotate [ARow.mk (some "1")] [] ≠ some [none] := by
  decide

/-- C8 (amended): when at least one identifier was extracted and the
spurious header rows form a leading prefix, a table with more data rows
than identifiers gets the identifiers, in order, on the earliest data
rows; all later rows receive a null identifier; the assignment is a
total function (it never fails). -/
theorem annotate_exhaustion_amended (rows : List ARow) (links : List String)
    (hne : links ≠ [])
    (_hdr : ∀ r ∈ rows.drop (rows.takeWhile isHeaderRow).length, isHeaderRow r = false)
    (hcount : links.length < rows.length - (rows.takeWhile isHeaderRow).length) :
    ∃ vals, annotate rows links = some vals ∧
      (∀ k l, links[k]? = some l →
        vals[(rows.takeWhile isHeaderRow).length + k]? = some (some l)) ∧
      (∀ j, (rows.takeWhile isHeaderRow).length + links.length ≤ j → j < rows.length →
        vals[j]? = some none) := by
  have hs : startScan rows 0 0 = (rows.takeWhile isHeaderRow).length := by
    simpa using startScan_eq rows 0
  have htw : (rows.takeWhile isHeaderRow).length ≤ rows.length :=
    (List.takeWhile_sublist isHeaderRow).length_le
  have hemp : links.isEmpty = false := by
    cases links with
    | nil => exact absurd rfl hne
    | cons a t => rfl
  refine ⟨fillFrom (List.replicate rows.length none) (startScan rows 0 0) links,
    by rw [annotate, hemp]; rfl, ?_, ?_⟩
  · intro k l hk
    have hklt : k < links.length := by
      by_contra hcon
      rw [List.getElem?_eq_none (by omega)] at hk
      exact Option.noConfusion hk
    rw [hs]
    exact fillFrom_getElem_assigned links _ _ _ l (by simp; omega) hk
  · intro j h1 h2
    rw [hs, fillFrom_getElem_ge links _ _ j (by omega), List.getElem?_replicate]
    simp [h2]

/-- C8 (amended, witness): three data rows after one header row, two
links: the links land on the first two data rows, the third gets null. -/
theorem annotate_exhaustion_amended_witness :
    ∃ vals,
      annotate [ARow.mk none, ARow.mk (some "1"), ARow.mk (some "2"), ARow.mk (some "3")]
          ["L1", "L2"] = some vals
        ∧ vals[1]? = some (some "L1") ∧ vals[2]? = some (some "L2")
        ∧ vals[3]? = some none := by
  obtain ⟨vals, h1, h2, h3⟩ :=
    annotate_exhaustion_amended
      [ARow.mk none, ARow.mk (some "1"), ARow.mk (some "2"), ARow.mk (some "3")]
      ["L1", "L2"] (by decide) (by decide) (by decide)
  have e1 : vals[1]? = some (some "L1") := by
    have := h2 0 "L1" (by decide)
    simpa using this
  have e2 : vals[2]? = some (some "L2") := by
    have := h2 1 "L2" (by decide)
    simpa using this
  have e3 : vals[3]? = some none := by
    have := h3 3 (by decide) (by decide)
    simpa using this
  exact ⟨vals, h1, e1, e2, e3⟩

/-! ## Claim C9 — scope of the Link Extractor -/

/-- C9 (counterexample): a document with one qualifying player link but
no table.  The claim says no table context is required and the link is
returned; the code requires a table and returns the empty sequence. -/
theorem extract_links_scope_counterexample :
    extract_player_links [HtmlNode.link "/players/a.html"] none = []
      ∧ specExtractAllLinks [HtmlNode.link "/players/a.html"]
          = ["https://www.basketball-reference.com/players/a.html"]
      ∧ extract_player_links [HtmlNode.link "/players/a.html"] none
          ≠ specExtractAllLinks [HtmlNode.link "/players/a.html"] := by
  decide

/-- C9 (amended): the Link Extractor is table-scoped.  It locates the
first table with the requested id; within that table it returns, in
document order, one URL per hyperlink whose target contains `/players/`
and ends in `.html`, prefixing the base URL to root-relative hrefs.
When no such table exists it returns the empty sequence; qualifying
links outside the located table are ignored. -/
theorem extract_links_scope_amended :
    (∀ (pre post : List HtmlNode) (t : String) (hs : List String),
       (∀ hs2, HtmlNode.table t hs2 ∉ pre) →
       extract_player_links (pre ++ HtmlNode.table t hs :: post) (some t)
         = (hs.filter playerLinkPattern).map (absolutize baseUrl))
    ∧ (∀ (doc : List HtmlNode) (tid : Option String),
        findTable doc tid = none → extract_player_links doc tid = []) := by
  constructor
  · intro pre post t hs hpre
    have hfind : findTableById (pre ++ HtmlNode.table t hs :: post) t = some hs := by
      induction pre with
      | nil => simp [findTableById, List.findSome?_cons]
      | cons n rest ih =>
        have hrest : ∀ hs2, HtmlNode.table t hs2 ∉ rest := by
          intro hs2 hmem
          exact hpre hs2 (List.mem_cons_of_mem n hmem)
        have ihr := ih hrest
        cases n with
        | link h => simpa [findTableById, List.findSome?_cons] using ihr
        | table i hs3 =>
          have hit : i ≠ t := by
            intro he
            subst he
            exact hpre hs3 (List.mem_cons_self _ _)
          simpa [findTableById, List.findSome?_cons, hit] using ihr
    simp [extract_player_links, findTable, hfind]
  · intro doc tid hnone
    simp [extract_player_links, hnone]

/-- C9 (amended, witness): concrete instance — a qualifying link before
the table is ignored, the table's own links are pattern-filtered and
absolutised. -/
theorem extract_links_scope_amended_witness :
    extract_player_links
        [HtmlNode.link "/players/x.html",
         HtmlNode.table "advanced" ["/players/a.html", "/teams/BOS.html"]]
        (some "advanced")
      = ["https://www.basketball-reference.com/players/a.html"] := by
  have h := extract_links_scope_amended.1 [HtmlNode.link "/players/x.html"] []
    "advanced" ["/players/a.html", "/teams/BOS.html"]
    (by intro hs2 hmem; simp at hmem)
  exact h.trans (by decide)

/-! ## Helper lemmas: the award expander -/

theorem applyEffects_of_init (eff : String → Option Cell) :
    ∀ (toks : List String) (c : Cell),
      (∀ t ∈ toks, eff t = none ∨ eff t = some c) → applyEffects eff toks c = c := by
  intro toks
  induction toks with
  | nil => intro c _; rfl
  | cons t ts ih =>
    intro c hall
    rcases hall t (List.mem_cons_self t ts) with h | h <;>
      · simp only [applyEffects, List.foldl_cons, h, Option.getD]
        exact ih c (fun u hu => hall u (List.mem_cons_of_mem t hu))

theorem applyEffects_of_mem (eff : String → Option Cell) :
    ∀ (toks : List String) (c init : Cell),
      (∀ t ∈ toks, eff t = none ∨ eff t = some c) →
      (∃ t ∈ toks, eff t = some c) → applyEffects eff toks init = c := by
  intro toks
  induction toks with
  | nil =>
    intro c init _ hex
    obtain ⟨t, ht, -⟩ := hex
    exact absurd ht (List.not_mem_nil t)
  | cons t ts ih =>
    intro c init hall hex
    have htail : ∀ u ∈ ts, eff u = none ∨ eff u = some c :=
      fun u hu => hall u (List.mem_cons_of_mem t hu)
    cases h : eff t with
    | some v =>
      have hv : v = c := by
        rcases hall t (List.mem_cons_self t ts) with h2 | h2
        · rw [h] at h2; exact Option.noConfusion h2
        · rw [h] at h2; exact Option.some.inj h2
      subst hv
      simp only [applyEffects, List.foldl_cons, h, Option.getD]
      exact applyEffects_of_init eff ts v htail
    | none =>
      simp only [applyEffects, List.foldl_cons, h, Option.getD]
      obtain ⟨u, hu, heffu⟩ := hex
      rcases List.mem_cons.mp hu with rfl | hu2
      · rw [h] at heffu; exact Option.noConfusion heffu
      · exact ih c init htail ⟨u, hu2, heffu⟩

theorem mem_collTokens (col : List (Option String)) (o : Option String) (t : String)
    (ho : o ∈ col) (ht : t ∈ rowTokens o) : t ∈ collTokens col :=
  List.mem_flatten.mpr ⟨rowTokens o, List.mem_map_of_mem rowTokens ho, ht⟩

theorem base_mem_allBases (col : List (Option String)) (t : String)
    (ht : t ∈ collTokens col) : baseOf t ∈ allBases col :=
  List.mem_dedup.mpr (List.mem_map_of_mem baseOf ht)

theorem hasVoting_of_token (col : List (Option String)) (award t : String)
    (ht : t ∈ collTokens col) (hp : pyStartsWith t (award ++ "-") = true) :
    hasVoting col award = true :=
  List.any_eq_true.mpr ⟨t, ht, hp⟩

theorem votingEffect_none_of_nodash (voting : List String) (award t : String)
    (hd : hasDash t = false) : votingEffect voting award t = none := by
  simp [votingEffect, hd]

theorem votingEffect_none_of_base_ne (voting : List String) (award t : String)
    (hb : (dashSplit t).headD "" ≠ award) : votingEffect voting award t = none := by
  by_cases hd : hasDash t
  · simp only [votingEffect, hd, if_true]
    cases hget : (dashSplit t).get? 1 with
    | none => rfl
    | some num =>
      refine if_neg ?_
      intro hcond
      have h1 : ((dashSplit t).headD "" == award) = true :=
        ((Bool.and_eq_true _ _).mp ((Bool.and_eq_true _ _).mp hcond).1).1
      exact hb (eq_of_beq h1)
  · simp [votingEffect, hd]

theorem votingEffect_token (voting : List String) (award t num : String)
    (hd : hasDash t = true) (hnum : (dashSplit t).get? 1 = some num)
    (hb : (dashSplit t).headD "" = award) (hc : voting.contains award = true)
    (hne : num ≠ "") :
    votingEffect voting award t
      = some (match parsePyInt num with
              | some n => Cell.intVal n
              | none => Cell.strVal num) := by
  simp only [votingEffect, hd, if_true, hnum, hb, hc, beq_self_eq_true, Bool.true_and,
    Bool.and_true]
  have : (num != "") = true := bne_iff_ne.mpr hne
  simp [this]

theorem parse_awards_voting_getElem (col : List (Option String)) (award : String) (i : Nat) :
    (parse_awards_voting_col col award)[i]? = (col[i]?).map (votingCell col award) := by
  simp [parse_awards_voting_col]

/-! ## Claim C5 — global ranked classification in the Award Expander -/

/-- C5 (counterexample): the awards cell `"X-3, X-5"` contains token
`"X-3"` and no `X` occurrence lacking a rank, yet the `X_VOTING` value of
that row is `5`, not `3`: the later ranked `X` token of the same row
overwrites the earlier one.  (The `no plain X column` half does hold.) -/
theorem expander_ranked_value_counterexample :
    "X-3" ∈ rowTokens (some "X-3, X-5")
      ∧ (∀ t ∈ collTokens [some "X-3, X-5"], baseOf t = "X" → hasDash t = true)
      ∧ parse_awards_voting_col [some "X-3, X-5"] "X" = [Cell.intVal 5]
      ∧ Cell.intVal 5 ≠ Cell.intVal 3
      ∧ "X" ∉ simple_awards [some "X-3, X-5"] := by
  decide

/-- C5 (amended): for an awards column containing token `"X-3"` in a row
whose only `X`-based ranked token is `"X-3"`, and no `X` occurrence
anywhere lacking a rank, the expander classifies `X` as ranked
everywhere: the row's `X_VOTING` value is the integer `3` and no plain
`X` column is created. -/
theorem expander_ranked_value_amended (col : List (Option String)) (i : Nat) (s : String)
    (hrow : col[i]? = some (some s))
    (hmem : "X-3" ∈ rowTokens (some s))
    (honly : ∀ t ∈ rowTokens (some s), hasDash t = true →
      (dashSplit t).headD "" = "X" → t = "X-3")
    (_hnolack : ∀ t ∈ collTokens col, baseOf t = "X" → hasDash t = true) :
    (parse_awards_voting_col col "X")[i]? = some (Cell.intVal 3)
      ∧ "X" ∉ simple_awards col := by
  have hocol : (some s) ∈ col := List.getElem?_mem hrow
  have htok : "X-3" ∈ collTokens col := mem_collTokens col (some s) "X-3" hocol hmem
  have hvot : hasVoting col "X" = true :=
    hasVoting_of_token col "X" "X-3" htok (by decide)
  have hbase : "X" ∈ allBases col := by
    have h := base_mem_allBases col "X-3" htok
    rw [show baseOf "X-3" = "X" by decide] at h
    exact h
  have hvmem : "X" ∈ voting_awards col := List.mem_filter.mpr ⟨hbase, hvot⟩
  have hcont : (voting_awards col).contains "X" = true := List.elem_iff.mpr hvmem
  have heff : votingEffect (voting_awards col) "X" "X-3" = some (Cell.intVal 3) := by
    have h := votingEffect_token (voting_awards col) "X" "X-3" "3"
      (by decide) (by decide) (by decide) hcont (by decide)
    exact h.trans (by decide)
  constructor
  · rw [parse_awards_voting_getElem, hrow]
    refine congrArg some ?_
    unfold votingCell
    apply applyEffects_of_mem
    · intro t ht
      by_cases hd : hasDash t
      · by_cases hb : (dashSplit t).headD "" = "X"
        · right
          rw [honly t ht hd hb]
          exact heff
        · exact Or.inl (votingEffect_none_of_base_ne _ _ _ hb)
      · exact Or.inl (votingEffect_none_of_nodash _ _ _ (by simpa using hd))
    · exact ⟨"X-3", hmem, heff⟩
  · intro hsm
    have h := List.of_mem_filter hsm
    rw [hvot] at h
    exact Bool.noConfusion h

/-- C5 (amended, witness): a two-row column where `X-3` is the first
row's only `X` token and the other `X` occurrence (`X-1`) also carries a
rank: the first row's `X_VOTING` is `3` and no plain `X` column exists. -/
theorem expander_ranked_value_amended_witness :
    (parse_awards_voting_col [some "X-3", some "X-1"] "X")[0]? = some (Cell.intVal 3)
      ∧ "X" ∉ simple_awards [some "X-3", some "X-1"] :=
  expander_ranked_value_amended [some "X-3", some "X-1"] 0 "X-3"
    (by decide) (by decide) (by decide) (by decide)

/-! ## Claim C7 — rank parse failure in the Award Expander -/

/-- C7 (counterexample): `"MVP-"` is a token of the ranked category
`MVP` (it itself makes `MVP` ranked) whose rank part is the empty string,
which does not parse as an integer.  The claim says the raw token is
stored; the code stores nothing and the cell keeps its `None` default. -/
theorem rank_parse_failure_counterexample :
    hasVoting [some "MVP-"] "MVP" = true
      ∧ (dashSplit "MVP-").get? 1 = some ""
      ∧ parsePyInt "" = none
      ∧ parse_awards_voting_col [some "MVP-"] "MVP" = [Cell.null]
      ∧ Cell.null ≠ Cell.strVal ""
      ∧ Cell.null ≠ Cell.strVal "MVP-" := by
  decide

/-- C7 (amended): for a row whose awards field contains a dashed token of
a ranked category whose part after the first dash is nonempty and does
not parse as an integer (and no other token of the row targets that
category's voting column), the expander stores that raw rank part
verbatim; tokens with an empty rank part leave the default null instead,
and the operation is a total function — it never raises. -/
theorem rank_parse_failure_amended (col : List (Option String)) (i : Nat)
    (s t b v : String)
    (hrow : col[i]? = some (some s))
    (ht : t ∈ rowTokens (some s))
    (hd : hasDash t = true)
    (hb : (dashSplit t).headD "" = b)
    (hnum : (dashSplit t).get? 1 = some v)
    (hvne : v ≠ "")
    (hfail : parsePyInt v = none)
    (hrank : hasVoting col b = true)
    (honly : ∀ u ∈ rowTokens (some s), hasDash u = true →
      (dashSplit u).headD "" = b → u = t) :
    (parse_awards_voting_col col b)[i]? = some (Cell.strVal v) := by
  have hocol : (some s) ∈ col := List.getElem?_mem hrow
  have htok : t ∈ collTokens col := mem_collTokens col (some s) t hocol ht
  have hbase : b ∈ allBases col := by
    have h := base_mem_allBases col t htok
    rw [show baseOf t = (dashSplit t).headD "" from rfl, hb] at h
    exact h
  have hvmem : b ∈ voting_awards col := List.mem_filter.mpr ⟨hbase, hrank⟩
  have hcont : (voting_awards col).contains b = true := List.elem_iff.mpr hvmem
  have heff : votingEffect (voting_awards col) b t = some (Cell.strVal v) := by
    have h := votingEffect_token (voting_awards col) b t v hd hnum hb hcont hvne
    rw [hfail] at h
    exact h
  rw [parse_awards_voting_getElem, hrow]
  refine congrArg some ?_
  unfold votingCell
  apply applyEffects_of_mem
  · intro u hu
    by_cases hdu : hasDash u
    · by_cases hbu : (dashSplit u).headD "" = b
      · right
        rw [honly u hu hdu hbu]
        exact heff
      · exact Or.inl (votingEffect_none_of_base_ne _ _ _ hbu)
    · exact Or.inl (votingEffect_none_of_nodash _ _ _ (by simpa using hdu))
  · exact ⟨t, ht, heff⟩

/-- C7 (amended, witness): the single cell `"MVP-abc"`: the rank part
`"abc"` fails integer parsing and is stored verbatim in `MVP_VOTING`. -/
theorem rank_parse_failure_amended_witness :
    (parse_awards_voting_col [some "MVP-abc"] "MVP")[0]? = some (Cell.strVal "abc") :=
  rank_parse_failure_amended [some "MVP-abc"] 0 "MVP-abc" "MVP-abc" "MVP" "abc"
    (by decide) (by decide) (by decide) (by decide) (by decide) (by decide)
    (by decide) (by decide) (by decide)

/-! ## Helper lemmas: the inner join -/

theorem filter_keysMatch_length (B : List CRow) (a : CRow) (hB : (B.map mkey).Nodup) :
    (B.filter (keysMatchB a)).length
      = if (B.map mkey).contains (mkey a) then 1 else 0 := by
  induction B with
  | nil => simp
  | cons b bs ih =>
    rw [List.map_cons] at hB
    have hnc := List.nodup_cons.mp hB
    have ih2 := ih hnc.2
    by_cases hab : mkey a = mkey b
    · have hm : keysMatchB a b = true := by
        unfold keysMatchB
        exact beq_iff_eq.mpr hab
      have hnotin : ((bs.map mkey).contains (mkey a)) = false := by
        rw [hab]
        by_contra hcon
        have : (bs.map mkey).contains (mkey b) = true := by
          cases hx : (bs.map mkey).contains (mkey b) with
          | true => rfl
          | false => exact absurd hx hcon
        exact hnc.1 (List.elem_iff.mp this)
      rw [List.filter_cons_of_pos hm]
      simp only [List.length_cons, ih2, hnotin, if_false]
      have : ((b :: bs).map mkey).contains (mkey a) = true := by
        simp [List.contains_cons, hab]
      rw [this]
      simp
    · have hm : keysMatchB a b = false := by
        unfold keysMatchB
        exact beq_eq_false_iff_ne.mpr hab
      rw [List.filter_cons_of_neg (by simp [hm])]
      rw [ih2]
      have : ((b :: bs).map mkey).contains (mkey a)
          = (bs.map mkey).contains (mkey a) := by
        simp [List.contains_cons, hab]
      rw [this]

theorem innerJoin_length (A B : List CRow) (hB : (B.map mkey).Nodup) :
    (innerJoin A B).length
      = (A.filter (fun a => (B.map mkey).contains (mkey a))).length := by
  induction A with
  | nil => rfl
  | cons a as ih =>
    simp only [innerJoin, List.length_append, List.length_map, ih]
    rw [filter_keysMatch_length B a hB]
    cases hval : (B.map mkey).contains (mkey a) with
    | true =>
      rw [List.filter_cons_of_pos (p := fun r => (B.map mkey).contains (mkey r)) hval]
      rw [if_pos rfl]
      simp [Nat.add_comm]
    | false =>
      rw [List.filter_cons_of_neg (p := fun r => (B.map mkey).contains (mkey r))
        (by simpa using hval)]
      rw [if_neg (by exact Bool.false_ne_true)]
      simp

theorem sharedKeyCount_eq (A B : List CRow) (hA : (A.map mkey).Nodup) :
    sharedKeyCount A B
      = (A.filter (fun a => (B.map mkey).contains (mkey a))).length := by
  unfold sharedKeyCount
  rw [List.Nodup.dedup hA, List.filter_map, List.length_map]
  rfl

theorem filter_shared_le_B (A B : List CRow) (hA : (A.map mkey).Nodup) :
    (A.filter (fun a => (B.map mkey).contains (mkey a))).length ≤ B.length := by
  have hnd : ((A.filter (fun a => (B.map mkey).contains (mkey a))).map mkey).Nodup :=
    List.Nodup.sublist (List.Sublist.map mkey (List.filter_sublist A)) hA
  have hsub : (A.filter (fun a => (B.map mkey).contains (mkey a))).map mkey ⊆ B.map mkey := by
    intro k hk
    obtain ⟨a2, haf, rfl⟩ := List.mem_map.mp hk
    have hc : ((B.map mkey).contains (mkey a2)) = true :=
      List.of_mem_filter (p := fun r => (B.map mkey).contains (mkey r)) haf
    exact List.elem_iff.mp hc
  have hfin : ((A.filter (fun a => (B.map mkey).contains (mkey a))).map mkey).toFinset
      ⊆ (B.map mkey).toFinset := by
    intro x hx
    simp only [List.mem_toFinset] at hx ⊢
    exact hsub hx
  calc (A.filter (fun a => (B.map mkey).contains (mkey a))).length
      = ((A.filter (fun a => (B.map mkey).contains (mkey a))).map mkey).length := by
        rw [List.length_map]
    _ = ((A.filter (fun a => (B.map mkey).contains (mkey a))).map mkey).toFinset.card := by
        rw [List.toFinset_card_of_nodup hnd]
    _ ≤ (B.map mkey).toFinset.card := Finset.card_le_card hfin
    _ ≤ (B.map mkey).length := List.toFinset_card_le _
    _ = B.length := List.length_map _ _

/-! ## Claim C4 — inner-join row counts of the Merger -/

/-- C4 (counterexample): with a duplicated key in table A the inner join
produces the product of the matches: 2 output rows against 1 shared key
and `min(|A|,|B|) = 1`, contradicting both the exact-count and the upper
bound of the claim. -/
theorem join_count_counterexample :
    (innerJoin
        [CRow.mk (some "P") (some "u1") "2021" (some "BOS"),
         CRow.mk (some "P") (some "u1") "2021" (some "BOS")]
        [CRow.mk (some "P") (some "u1") "2021" (some "BOS")]).length = 2
      ∧ sharedKeyCount
          [CRow.mk (some "P") (some "u1") "2021" (some "BOS"),
           CRow.mk (some "P") (some "u1") "2021" (some "BOS")]
          [CRow.mk (some "P") (some "u1") "2021" (some "BOS")] = 1
      ∧ ¬((2 : Nat) ≤ min 2 1) := by
  decide

/-- C4 (amended): when each input table has pairwise distinct
`(Player_URL, Season, Team)` keys, the inner join keeps exactly the rows
whose key occurs in both tables: its row count equals the number of
shared keys and is at most `min(|A|, |B|)`. -/
theorem join_count_amended (A B : List CRow)
    (hA : (A.map mkey).Nodup) (hB : (B.map mkey).Nodup) :
    (innerJoin A B).length = sharedKeyCount A B
      ∧ (innerJoin A B).length ≤ min A.length B.length := by
  have h1 := innerJoin_length A B hB
  constructor
  · rw [h1, sharedKeyCount_eq A B hA]
  · rw [h1]
    exact Nat.le_min.mpr ⟨List.length_filter_le _ _, filter_shared_le_B A B hA⟩

/-- C4 (amended, witness): concrete tables with distinct keys — one
shared key, one output row, below both input sizes. -/
theorem join_count_amended_witness :
    (innerJoin
        [CRow.mk (some "P") (some "u1") "2021" (some "BOS")]
        [CRow.mk (some "P") (some "u1") "2021" (some "BOS"),
         CRow.mk (some "Q") (some "u2") "2021" (some "LAL")]).length
      = sharedKeyCount
          [CRow.mk (some "P") (some "u1") "2021" (some "BOS")]
          [CRow.mk (some "P") (some "u1") "2021" (some "BOS"),
           CRow.mk (some "Q") (some "u2") "2021" (some "LAL")]
      ∧ (innerJoin
          [CRow.mk (some "P") (some "u1") "2021" (some "BOS")]
          [CRow.mk (some "P") (some "u1") "2021" (some "BOS"),
           CRow.mk (some "Q") (some "u2") "2021" (some "LAL")]).length
        ≤ min 1 2 :=
  join_count_amended _ _ (by decide) (by decide)

/-! ## Helper lemmas: merge column deduplication -/

theorem append_data_eq {x c s t : String} (h : x ++ s = c ++ t)
    (hlen : s.data.length = t.data.length) : x = c ∧ s = t := by
  have hd : x.data ++ s.data = c.data ++ t.data := by
    rw [← String.data_append, ← String.data_append, h]
  have h2 := List.append_inj' hd hlen
  exact ⟨String.ext h2.1, String.ext h2.2⟩

theorem append_sfx_ne (x c : String) : x ++ "_per_game" ≠ c ++ "_advanced" := by
  intro h
  have h2 := (append_data_eq h (by decide)).2
  exact absurd h2 (by decide)

theorem append_sfx_inj {x c s : String} (h : x ++ s = c ++ s) : x = c :=
  (append_data_eq h rfl).1

theorem map_sfx_erase (cs' : List String) (c : String) :
    ∀ bRem : List String, bRem.Nodup → c ∈ bRem → (c ++ "_advanced") ∉ bRem →
      (bRem.map (sfxMark (c :: cs') "_advanced")).erase (c ++ "_advanced")
        = (bRem.erase c).map (sfxMark (c :: cs') "_advanced") := by
  intro bRem
  induction bRem with
  | nil => intro _ hc _; exact absurd hc (List.not_mem_nil c)
  | cons b rest ih =>
    intro hnd hc hfr
    by_cases hbc : b = c
    · subst hbc
      have himg : sfxMark (b :: cs') "_advanced" b = b ++ "_advanced" := by
        unfold sfxMark
        rw [if_pos (by simp [List.contains_cons])]
      simp only [List.map_cons, himg, List.erase_cons_head]
    · have himg : sfxMark (c :: cs') "_advanced" b ≠ c ++ "_advanced" := by
        unfold sfxMark
        by_cases hin : (c :: cs').contains b
        · rw [if_pos hin]
          intro he
          exact hbc (append_sfx_inj he)
        · rw [if_neg hin]
          intro he
          exact hfr (he ▸ List.mem_cons_self b rest)
      have hcr : c ∈ rest := by
        rcases List.mem_cons.mp hc with h | h
        · exact absurd h.symm hbc
        · exact h
      have hnd2 := (List.nodup_cons.mp hnd).2
      have hfr2 : (c ++ "_advanced") ∉ rest := fun h => hfr (List.mem_cons_of_mem b h)
      have hbeq1 : ¬(sfxMark (c :: cs') "_advanced" b == c ++ "_advanced") = true := by
        simp only [beq_iff_eq]
        exact himg
      have hbeq2 : ¬(b == c) = true := by
        simp only [beq_iff_eq]
        exact hbc
      rw [List.map_cons, List.erase_cons_tail hbeq1, ih hnd2 hcr hfr2,
        List.erase_cons_tail hbeq2, List.map_cons]

theorem dedup_fold_eq (aCols : List String) :
    ∀ cs bRem : List String,
      cs.Nodup →
      (∀ c ∈ cs, c ∈ aCols ∧ c ∈ bRem) →
      aCols.Nodup → bRem.Nodup →
      (∀ c ∈ cs, (c ++ "_per_game") ∉ aCols ∧ (c ++ "_per_game") ∉ bRem ∧
        (c ++ "_advanced") ∉ aCols ∧ (c ++ "_advanced") ∉ bRem) →
      cs.foldl dedupStep
        (aCols.map (sfxMark cs "_per_game") ++ bRem.map (sfxMark cs "_advanced"))
        = aCols ++ bRem.filter (fun x => !(cs.contains x)) := by
  intro cs
  induction cs with
  | nil =>
    intro bRem _ _ _ _ _
    simp only [List.foldl_nil]
    have h1 : aCols.map (sfxMark [] "_per_game") = aCols := by
      rw [List.map_congr_left (fun c _ => (rfl : sfxMark [] "_per_game" c = c))]
      exact List.map_id aCols
    have h2 : bRem.map (sfxMark [] "_advanced") = bRem := by
      rw [List.map_congr_left (fun c _ => (rfl : sfxMark [] "_advanced" c = c))]
      exact List.map_id bRem
    have h3 : bRem.filter (fun x => !(([] : List String).contains x)) = bRem := by
      rw [List.filter_congr (fun c _ => rfl)]
      exact List.filter_true bRem
    rw [h1, h2, h3]
  | cons c cs' ih =>
    intro bRem hnd hmem ha hb hfresh
    have hcA : c ∈ aCols := (hmem c (List.mem_cons_self c cs')).1
    have hcB : c ∈ bRem := (hmem c (List.mem_cons_self c cs')).2
    have hfc := hfresh c (List.mem_cons_self c cs')
    have hcnotcs' : c ∉ cs' := (List.nodup_cons.mp hnd).1
    have hnd' : cs'.Nodup := (List.nodup_cons.mp hnd).2
    have hsfxc_pg : sfxMark (c :: cs') "_per_game" c = c ++ "_per_game" := by
      unfold sfxMark
      rw [if_pos (by simp [List.contains_cons])]
    have hsfxc_adv : sfxMark (c :: cs') "_advanced" c = c ++ "_advanced" := by
      unfold sfxMark
      rw [if_pos (by simp [List.contains_cons])]
    have hmem_pg : (c ++ "_per_game")
        ∈ aCols.map (sfxMark (c :: cs') "_per_game")
          ++ bRem.map (sfxMark (c :: cs') "_advanced") :=
      List.mem_append_left _ (hsfxc_pg ▸ List.mem_map_of_mem _ hcA)
    have hmem_adv : (c ++ "_advanced")
        ∈ aCols.map (sfxMark (c :: cs') "_per_game")
          ++ bRem.map (sfxMark (c :: cs') "_advanced") :=
      List.mem_append_right _ (hsfxc_adv ▸ List.mem_map_of_mem _ hcB)
    have hstep : dedupStep
        (aCols.map (sfxMark (c :: cs') "_per_game")
          ++ bRem.map (sfxMark (c :: cs') "_advanced")) c
        = ((aCols.map (sfxMark (c :: cs') "_per_game")
            ++ bRem.map (sfxMark (c :: cs') "_advanced")).erase (c ++ "_advanced")).map
            (fun x => if x == c ++ "_per_game" then c else x) := by
      unfold dedupStep
      have e1 : (aCols.map (sfxMark (c :: cs') "_per_game")
          ++ bRem.map (sfxMark (c :: cs') "_advanced")).contains (c ++ "_per_game")
          = true := List.elem_iff.mpr hmem_pg
      have e2 : (aCols.map (sfxMark (c :: cs') "_per_game")
          ++ bRem.map (sfxMark (c :: cs') "_advanced")).contains (c ++ "_advanced")
          = true := List.elem_iff.mpr hmem_adv
      rw [e1, e2]
      rfl
    have hadvA : (c ++ "_advanced") ∉ aCols.map (sfxMark (c :: cs') "_per_game") := by
      intro hmm
      obtain ⟨x, hx, he⟩ := List.mem_map.mp hmm
      unfold sfxMark at he
      by_cases hxc : (c :: cs').contains x
      · rw [if_pos hxc] at he
        exact append_sfx_ne x c he
      · rw [if_neg hxc] at he
        exact hfc.2.2.1 (he ▸ hx)
    have herase : (aCols.map (sfxMark (c :: cs') "_per_game")
          ++ bRem.map (sfxMark (c :: cs') "_advanced")).erase (c ++ "_advanced")
        = aCols.map (sfxMark (c :: cs') "_per_game")
          ++ (bRem.erase c).map (sfxMark (c :: cs') "_advanced") := by
      rw [List.erase_append_right _ hadvA, map_sfx_erase cs' c bRem hb hcB hfc.2.2.2]
    have hrnA : (aCols.map (sfxMark (c :: cs') "_per_game")).map
          (fun x => if x == c ++ "_per_game" then c else x)
        = aCols.map (sfxMark cs' "_per_game") := by
      rw [List.map_map]
      apply List.map_congr_left
      intro x hx
      show (fun x => if x == c ++ "_per_game" then c else x)
        (sfxMark (c :: cs') "_per_game" x) = sfxMark cs' "_per_game" x
      by_cases hxc : x = c
      · subst hxc
        rw [hsfxc_pg]
        have h1 : sfxMark cs' "_per_game" x = x := by
          unfold sfxMark
          rw [if_neg (fun hcon => hcnotcs' (List.elem_iff.mp hcon))]
        rw [h1]
        simp
      · by_cases hxin : cs'.contains x
        · have h1 : sfxMark (c :: cs') "_per_game" x = x ++ "_per_game" := by
            unfold sfxMark
            rw [if_pos (by simp [List.contains_cons, List.elem_iff.mp hxin])]
          have h2 : sfxMark cs' "_per_game" x = x ++ "_per_game" := by
            unfold sfxMark
            rw [if_pos hxin]
          rw [h1, h2]
          have hne : ¬(x ++ "_per_game" == c ++ "_per_game") = true := by
            simp only [beq_iff_eq]
            intro he
            exact hxc (append_sfx_inj he)
          simp only [if_neg hne]
        · have hxnotin : ¬((c :: cs').contains x = true) := by
            simp only [List.contains_cons, Bool.or_eq_true, beq_iff_eq]
            rintro (h | h)
            · exact hxc h
            · exact hxin h
          have h1 : sfxMark (c :: cs') "_per_game" x = x := by
            unfold sfxMark
            rw [if_neg hxnotin]
          have h2 : sfxMark cs' "_per_game" x = x := by
            unfold sfxMark
            rw [if_neg hxin]
          rw [h1, h2]
          have hne : ¬(x == c ++ "_per_game") = true := by
            simp only [beq_iff_eq]
            intro he
            exact hfc.1 (he ▸ hx)
          simp only [if_neg hne]
    have hrnB : ((bRem.erase c).map (sfxMark (c :: cs') "_advanced")).map
          (fun x => if x == c ++ "_per_game" then c else x)
        = (bRem.erase c).map (sfxMark cs' "_advanced") := by
      rw [List.map_map]
      apply List.map_congr_left
      intro y hy0
      have hyp := (List.Nodup.mem_erase_iff hb).mp hy0
      have hyc : y ≠ c := hyp.1
      have hy : y ∈ bRem := hyp.2
      show (fun x => if x == c ++ "_per_game" then c else x)
        (sfxMark (c :: cs') "_advanced" y) = sfxMark cs' "_advanced" y
      by_cases hyin : cs'.contains y
      · have h1 : sfxMark (c :: cs') "_advanced" y = y ++ "_advanced" := by
          unfold sfxMark
          rw [if_pos (by simp [List.contains_cons, List.elem_iff.mp hyin])]
        have h2 : sfxMark cs' "_advanced" y = y ++ "_advanced" := by
          unfold sfxMark
          rw [if_pos hyin]
        rw [h1, h2]
        have hne : ¬(y ++ "_advanced" == c ++ "_per_game") = true := by
          simp only [beq_iff_eq]
          intro he
          exact append_sfx_ne c y he.symm
        simp only [if_neg hne]
      · have hynotin : ¬((c :: cs').contains y = true) := by
          simp only [List.contains_cons, Bool.or_eq_true, beq_iff_eq]
          rintro (h | h)
          · exact hyc h
          · exact hyin h
        have h1 : sfxMark (c :: cs') "_advanced" y = y := by
          unfold sfxMark
          rw [if_neg hynotin]
        have h2 : sfxMark cs' "_advanced" y = y := by
          unfold sfxMark
          rw [if_neg hyin]
        rw [h1, h2]
        have hne : ¬(y == c ++ "_per_game") = true := by
          simp only [beq_iff_eq]
          intro he
          exact hfc.2.1 (he ▸ hy)
        simp only [if_neg hne]
    have hmem' : ∀ c2 ∈ cs', c2 ∈ aCols ∧ c2 ∈ bRem.erase c := by
      intro c2 hc2
      have h := hmem c2 (List.mem_cons_of_mem c hc2)
      have hc2c : c2 ≠ c := fun he => hcnotcs' (he ▸ hc2)
      exact ⟨h.1, (List.mem_erase_of_ne hc2c).mpr h.2⟩
    have hfresh' : ∀ c2 ∈ cs', (c2 ++ "_per_game") ∉ aCols
        ∧ (c2 ++ "_per_game") ∉ bRem.erase c
        ∧ (c2 ++ "_advanced") ∉ aCols ∧ (c2 ++ "_advanced") ∉ bRem.erase c := by
      intro c2 hc2
      have h := hfresh c2 (List.mem_cons_of_mem c hc2)
      exact ⟨h.1, fun hcon => h.2.1 (List.mem_of_mem_erase hcon), h.2.2.1,
        fun hcon => h.2.2.2 (List.mem_of_mem_erase hcon)⟩
    have hfilter : (bRem.erase c).filter (fun x => !(cs'.contains x))
        = bRem.filter (fun x => !((c :: cs').contains x)) := by
      rw [List.Nodup.erase_eq_filter hb c, List.filter_filter]
      apply List.filter_congr
      intro a _
      simp only [List.contains_cons, Bool.not_or, bne]
      exact Bool.and_comm _ _
    calc (c :: cs').foldl dedupStep
          (aCols.map (sfxMark (c :: cs') "_per_game")
            ++ bRem.map (sfxMark (c :: cs') "_advanced"))
        = cs'.foldl dedupStep
            (dedupStep (aCols.map (sfxMark (c :: cs') "_per_game")
              ++ bRem.map (sfxMark (c :: cs') "_advanced")) c) := by
          rw [List.foldl_cons]
      _ = cs'.foldl dedupStep
            (aCols.map (sfxMark cs' "_per_game")
              ++ (bRem.erase c).map (sfxMark cs' "_advanced")) := by
          rw [hstep, herase, List.map_append, hrnA, hrnB]
      _ = aCols ++ (bRem.erase c).filter (fun x => !(cs'.contains x)) :=
          ih (bRem.erase c) hnd' hmem' ha (List.Nodup.erase c hb) hfresh'
      _ = aCols ++ bRem.filter (fun x => !((c :: cs').contains x)) := by
          rw [hfilter]

/-! ## Claim C6 — column order of the Merger -/

/-- C6 (counterexample): the merge does not move the join keys to the
front.  With A's columns `[Player, Player_URL, Season, Team, PTS]` the
output starts with `Player`, not with the join keys as the claim
requires. -/
theorem merge_columns_order_counterexample :
    merge_columns ["Player", "Player_URL", "Season", "Team", "PTS"]
        ["Player_URL", "Season", "Team", "PTS", "WS"]
      = ["Player", "Player_URL", "Season", "Team", "PTS", "WS"]
      ∧ specMergeColumnOrder ["Player", "Player_URL", "Season", "Team", "PTS"]
          ["Player_URL", "Season", "Team", "PTS", "WS"]
        = ["Player_URL", "Season", "Team", "Player", "PTS", "WS"]
      ∧ merge_columns ["Player", "Player_URL", "Season", "Team", "PTS"]
          ["Player_URL", "Season", "Team", "PTS", "WS"]
        ≠ specMergeColumnOrder ["Player", "Player_URL", "Season", "Team", "PTS"]
          ["Player_URL", "Season", "Team", "PTS", "WS"] := by
  decide

/-- C6 (amended): the merged column order is A's columns in their
original order — join keys staying wherever they appear within A, and
shared non-key columns keeping A's position and value — followed by B's
unique non-key columns in their original order.  (Stated under
no-duplicate column labels and freshness of the suffixed names, which
real frames satisfy.) -/
theorem merge_columns_order_amended (aCols bCols : List String)
    (ha : aCols.Nodup) (hb : (bCols.erase "Awards").Nodup)
    (hfresh : ∀ c ∈ commonCols aCols (bCols.erase "Awards"),
      (c ++ "_per_game") ∉ aCols ∧ (c ++ "_per_game") ∉ bCols.erase "Awards" ∧
      (c ++ "_advanced") ∉ aCols ∧ (c ++ "_advanced") ∉ bCols.erase "Awards") :
    merge_columns aCols bCols
      = aCols ++ (bCols.erase "Awards").filter
          (fun c => !(mergeKeys.contains c) && !(aCols.contains c)) := by
  have hmem : ∀ c ∈ commonCols aCols (bCols.erase "Awards"),
      c ∈ aCols ∧ c ∈ (bCols.erase "Awards").filter (fun x => !(mergeKeys.contains x)) := by
    intro c hc
    have h := List.mem_filter.mp hc
    have h2 := (Bool.and_eq_true _ _).mp h.2
    exact ⟨h.1, List.mem_filter.mpr ⟨List.elem_iff.mp h2.1, h2.2⟩⟩
  have hfresh2 : ∀ c ∈ commonCols aCols (bCols.erase "Awards"),
      (c ++ "_per_game") ∉ aCols
        ∧ (c ++ "_per_game") ∉ (bCols.erase "Awards").filter
            (fun x => !(mergeKeys.contains x))
        ∧ (c ++ "_advanced") ∉ aCols
        ∧ (c ++ "_advanced") ∉ (bCols.erase "Awards").filter
            (fun x => !(mergeKeys.contains x)) := by
    intro c hc
    have h := hfresh c hc
    exact ⟨h.1, fun hcon => h.2.1 (List.mem_of_mem_filter hcon), h.2.2.1,
      fun hcon => h.2.2.2 (List.mem_of_mem_filter hcon)⟩
  have hmain := dedup_fold_eq aCols (commonCols aCols (bCols.erase "Awards"))
    ((bCols.erase "Awards").filter (fun x => !(mergeKeys.contains x)))
    (ha.filter _) hmem ha (hb.filter _) hfresh2
  have hleft : merge_columns aCols bCols
      = (commonCols aCols (bCols.erase "Awards")).foldl dedupStep
          (aCols.map (sfxMark (commonCols aCols (bCols.erase "Awards")) "_per_game")
            ++ ((bCols.erase "Awards").filter (fun x => !(mergeKeys.contains x))).map
                (sfxMark (commonCols aCols (bCols.erase "Awards")) "_advanced")) := rfl
  rw [hleft, hmain, List.filter_filter]
  refine congrArg (aCols ++ ·) ?_
  apply List.filter_congr
  intro a ha2
  cases hk : mergeKeys.contains a with
  | true => simp
  | false =>
    cases hac : aCols.contains a with
    | true =>
      have hcs : (commonCols aCols (bCols.erase "Awards")).contains a = true := by
        apply List.elem_iff.mpr
        apply List.mem_filter.mpr
        refine ⟨List.elem_iff.mp hac, ?_⟩
        have hb1 : ((bCols.erase "Awards").contains a) = true := List.elem_iff.mpr ha2
        rw [hb1, hk]
        rfl
      rw [hcs]
      decide
    | false =>
      have hcs : (commonCols aCols (bCols.erase "Awards")).contains a = false := by
        cases hv : (commonCols aCols (bCols.erase "Awards")).contains a with
        | false => rfl
        | true =>
          have hmem2 := List.mem_filter.mp (List.elem_iff.mp hv)
          have hA : (aCols.contains a) = true := List.elem_iff.mpr hmem2.1
          rw [hA] at hac
          exact Bool.noConfusion hac
      rw [hcs]

/-- C6 (amended, witness): the amended theorem at concrete column lists;
the shared non-key column `PTS` keeps A's position, `WS` is appended. -/
theorem merge_columns_order_amended_witness :
    merge_columns ["Player", "Player_URL", "Season", "Team", "PTS"]
        ["Player_URL", "Season", "Team", "PTS", "WS"]
      = ["Player", "Player_URL", "Season", "Team", "PTS", "WS"] := by
  have h := merge_columns_order_amended
    ["Player", "Player_URL", "Season", "Team", "PTS"]
    ["Player_URL", "Season", "Team", "PTS", "WS"]
    (by decide) (by decide) (by decide)
  exact h.trans (by decide)

/-! ## Helper lemmas: the multi-team collapse -/

theorem enumF_mem {p : Nat × CRow} :
    ∀ (n : Nat) (l : List CRow), p ∈ enumF n l →
      ∃ k, p.1 = n + k ∧ l.get? k = some p.2 := by
  intro n l
  induction l generalizing n with
  | nil => intro h; exact absurd h (List.not_mem_nil p)
  | cons a t ih =>
    intro h
    rcases List.mem_cons.mp h with rfl | h2
    · exact ⟨0, by simp, rfl⟩
    · obtain ⟨k, hk1, hk2⟩ := ih (n + 1) h2
      exact ⟨k + 1, by omega, hk2⟩

theorem enumF_map_snd : ∀ (n : Nat) (l : List CRow), (enumF n l).map Prod.snd = l := by
  intro n l
  induction l generalizing n with
  | nil => rfl
  | cons a t ih => simp [enumF, ih]

theorem enumF_fst_unique (n : Nat) (l : List CRow) (p q : Nat × CRow)
    (hp : p ∈ enumF n l) (hq : q ∈ enumF n l) (h : p.1 = q.1) : p = q := by
  obtain ⟨k1, hk1, hg1⟩ := enumF_mem n l hp
  obtain ⟨k2, hk2, hg2⟩ := enumF_mem n l hq
  have hk : k1 = k2 := by omega
  subst hk
  rw [hg1] at hg2
  exact Prod.ext h (Option.some.inj hg2)

theorem enumF_filter_map_snd (P : CRow → Bool) :
    ∀ (n : Nat) (l : List CRow),
      ((enumF n l).filter (fun p => P p.2)).map Prod.snd = l.filter P := by
  intro n l
  induction l generalizing n with
  | nil => rfl
  | cons a t ih =>
    simp only [enumF]
    by_cases h : P a
    · rw [List.filter_cons_of_pos (p := fun p : Nat × CRow => P p.2) h,
        List.filter_cons_of_pos h, List.map_cons, ih]
    · rw [List.filter_cons_of_neg (p := fun p : Nat × CRow => P p.2) h,
        List.filter_cons_of_neg h, ih]

theorem filterMap_filter_comm (f : Nat × CRow → Option CRow) (P : CRow → Bool) :
    ∀ l : List (Nat × CRow),
      (∀ p r, p ∈ l → f p = some r → P r = P p.2) →
      (l.filterMap f).filter P = (l.filter (fun p => P p.2)).filterMap f := by
  intro l
  induction l with
  | nil => intro _; rfl
  | cons a t ih =>
    intro hpres
    have ih2 := ih (fun p r hp hf => hpres p r (List.mem_cons_of_mem a hp) hf)
    cases hfa : f a with
    | none =>
      rw [List.filterMap_cons, hfa]
      by_cases hpa : P a.2
      · rw [List.filter_cons_of_pos (p := fun p : Nat × CRow => P p.2) hpa,
          List.filterMap_cons, hfa, ih2]
      · rw [List.filter_cons_of_neg (p := fun p : Nat × CRow => P p.2) hpa, ih2]
    | some r =>
      have hP : P r = P a.2 := hpres a r (List.mem_cons_self a t) hfa
      rw [List.filterMap_cons, hfa]
      by_cases hpa : P a.2
      · rw [List.filter_cons_of_pos (show (P r) = true by rw [hP]; exact hpa),
          List.filter_cons_of_pos (p := fun p : Nat × CRow => P p.2) hpa,
          List.filterMap_cons, hfa, ih2]
      · rw [List.filter_cons_of_neg (show ¬((P r) = true) by rw [hP]; exact hpa),
          List.filter_cons_of_neg (p := fun p : Nat × CRow => P p.2) hpa, ih2]

theorem filterMap_none_of_all (f : Nat × CRow → Option CRow) :
    ∀ l : List (Nat × CRow), (∀ p ∈ l, f p = none) → l.filterMap f = [] := by
  intro l
  induction l with
  | nil => intro _; rfl
  | cons a t ih =>
    intro h
    rw [List.filterMap_cons, h a (List.mem_cons_self a t),
      ih (fun p hp => h p (List.mem_cons_of_mem a hp))]

theorem filterMap_singleton_of_key (k : Nat) (f : Nat × CRow → Option CRow) (c : CRow) :
    ∀ l : List (Nat × CRow),
      (∀ p ∈ l, f p = if p.1 = k then some c else none) →
      (l.map Prod.fst).Nodup → (∃ p ∈ l, p.1 = k) →
      l.filterMap f = [c] := by
  intro l
  induction l with
  | nil =>
    intro _ _ hex
    obtain ⟨p, hp, -⟩ := hex
    exact absurd hp (List.not_mem_nil p)
  | cons a t ih =>
    intro hall hnd hex
    rw [List.map_cons] at hnd
    have hnc := List.nodup_cons.mp hnd
    by_cases hak : a.1 = k
    · have hfa : f a = some c := by rw [hall a (List.mem_cons_self a t), if_pos hak]
      have htnone : ∀ p ∈ t, f p = none := by
        intro p hp
        have hpk : p.1 ≠ k := by
          intro he
          exact hnc.1 (hak ▸ he ▸ List.mem_map_of_mem Prod.fst hp)
        rw [hall p (List.mem_cons_of_mem a hp), if_neg hpk]
      rw [List.filterMap_cons, hfa, filterMap_none_of_all f t htnone]
    · have hfa : f a = none := by rw [hall a (List.mem_cons_self a t), if_neg hak]
      have hex2 : ∃ p ∈ t, p.1 = k := by
        obtain ⟨p, hp, hpk⟩ := hex
        rcases List.mem_cons.mp hp with rfl | hp2
        · exact absurd hpk hak
        · exact ⟨p, hp2, hpk⟩
      rw [List.filterMap_cons, hfa,
        ih (fun p hp => hall p (List.mem_cons_of_mem a hp)) hnc.2 hex2]

theorem enumF_map_fst : ∀ (n : Nat) (l : List CRow),
    (enumF n l).map Prod.fst = List.range' n l.length := by
  intro n l
  induction l generalizing n with
  | nil => rfl
  | cons a t ih => simp [enumF, ih, List.range'_succ]

theorem keyGroup_fst_nodup (rows : List CRow) (u s : String) :
    ((keyGroup rows u s).map Prod.fst).Nodup := by
  have hsub : List.Sublist ((keyGroup rows u s).map Prod.fst)
      ((enumF 0 rows).map Prod.fst) :=
    List.Sublist.map Prod.fst (List.filter_sublist (enumF 0 rows))
  have hnd : ((enumF 0 rows).map Prod.fst).Nodup := by
    rw [enumF_map_fst]
    exact List.nodup_range' 0 rows.length
  exact List.Nodup.sublist hsub hnd

theorem collapseStep_none (idx : List (Nat × CRow)) (p : Nat × CRow)
    (hu : p.2.url = none) : collapseStep idx p = some p.2 := by
  unfold collapseStep
  rw [hu]

theorem collapseStep_some_u (idx : List (Nat × CRow)) (p : Nat × CRow) (u : String)
    (hu : p.2.url = some u) :
    collapseStep idx p
      = (if (idx.filter (fun q => sameKeyB u p.2.season q.2)).length == 1 then some p.2
         else
           match ((idx.filter (fun q => sameKeyB u p.2.season q.2)).filter
               (fun q => isMarker q.2.team)).getLast? with
           | some tm =>
             if p.1 == tm.1
             then some (rewriteRow p.2
               ((idx.filter (fun q => sameKeyB u p.2.season q.2)).map Prod.snd))
             else none
           | none =>
             match (idx.filter (fun q => sameKeyB u p.2.season q.2)).head? with
             | some h => if p.1 == h.1 then some p.2 else none
             | none => none) := by
  unfold collapseStep
  rw [hu]

theorem collapseStep_pres (idx : List (Nat × CRow)) (p : Nat × CRow) (r : CRow)
    (h : collapseStep idx p = some r) :
    r.url = p.2.url ∧ r.season = p.2.season ∧ r.player = p.2.player := by
  cases hu : p.2.url with
  | none =>
    rw [collapseStep_none idx p hu] at h
    obtain rfl := Option.some.inj h
    exact ⟨hu, rfl, rfl⟩
  | some u =>
    rw [collapseStep_some_u idx p u hu] at h
    split at h
    · obtain rfl := Option.some.inj h
      exact ⟨hu, rfl, rfl⟩
    · split at h
      · split at h
        · obtain rfl := Option.some.inj h
          exact ⟨hu, rfl, rfl⟩
        · exact Option.noConfusion h
      · split at h
        · split at h
          · obtain rfl := Option.some.inj h
            exact ⟨hu, rfl, rfl⟩
          · exact Option.noConfusion h
        · exact Option.noConfusion h

theorem collapse_filter_key (rows : List CRow) (u s : String) :
    (handle_multi_team_players rows).filter (sameKeyB u s)
      = (keyGroup rows u s).filterMap (collapseStep (enumF 0 rows)) := by
  unfold handle_multi_team_players keyGroup
  apply filterMap_filter_comm
  intro p r _ hf
  obtain ⟨h1, h2, -⟩ := collapseStep_pres (enumF 0 rows) p r hf
  unfold sameKeyB
  rw [h1, h2]

/-! ## Claim C1 — marker-row collapsing -/

/-- C1 (counterexample): the spec's scenario row group `TOT / BOS / LAL`.
The code's aggregate-marker test is substring containment of `'TM'`,
which `"TOT"` fails, so the group falls into the lossy keep-first
fallback: the output is the first row with team left as `"TOT"`, not
`"TOT (BOS, LAL)"`. -/
theorem collapse_marker_claim_counterexample :
    handle_multi_team_players
        [CRow.mk none (some "u1") "2021" (some "TOT"),
         CRow.mk none (some "u1") "2021" (some "BOS"),
         CRow.mk none (some "u1") "2021" (some "LAL")]
      = [CRow.mk none (some "u1") "2021" (some "TOT")]
      ∧ isMarker (some "TOT") = false
      ∧ (handle_multi_team_players
          [CRow.mk none (some "u1") "2021" (some "TOT"),
           CRow.mk none (some "u1") "2021" (some "BOS"),
           CRow.mk none (some "u1") "2021" (some "LAL")]).all
          (fun r => r.team != some "TOT (BOS, LAL)") = true := by
  decide

/-- C1 (amended): for every table and every `(identifier, period)` group
of at least two rows in which exactly one row's team field carries the
code's aggregate marker (the substring `'TM'`, as in `"2TM"`), the
collapser keeps only that marker row, its team rewritten to append the
sorted, deduplicated other rows' nonempty team values in parenthesized
form. -/
theorem collapse_marker_group_amended (rows : List CRow) (u s : String) (m : Nat × CRow)
    (hlen : 2 ≤ (keyGroup rows u s).length)
    (hmk : (keyGroup rows u s).filter (fun q => isMarker q.2.team) = [m]) :
    (handle_multi_team_players rows).filter (sameKeyB u s)
      = [rewriteRow m.2 ((keyGroup rows u s).map Prod.snd)] := by
  have hm_mem : m ∈ keyGroup rows u s := by
    have h : m ∈ (keyGroup rows u s).filter (fun q => isMarker q.2.team) := by
      rw [hmk]
      exact List.mem_cons_self m []
    exact List.mem_of_mem_filter h
  rw [collapse_filter_key]
  apply filterMap_singleton_of_key m.1 (collapseStep (enumF 0 rows))
    (rewriteRow m.2 ((keyGroup rows u s).map Prod.snd)) (keyGroup rows u s)
    ?hall (keyGroup_fst_nodup rows u s) ⟨m, hm_mem, rfl⟩
  intro p hp
  have hpf := List.mem_filter.mp hp
  have hand := (Bool.and_eq_true _ _).mp hpf.2
  have hu : p.2.url = some u := eq_of_beq hand.1
  have hs2 : p.2.season = s := eq_of_beq hand.2
  rw [collapseStep_some_u (enumF 0 rows) p u hu, hs2]
  have hne1 : ((((enumF 0 rows).filter (fun q => sameKeyB u s q.2)).length == 1))
      = false := by
    apply beq_eq_false_iff_ne.mpr
    have h2 : 2 ≤ ((enumF 0 rows).filter (fun q => sameKeyB u s q.2)).length := hlen
    omega
  rw [hne1, if_neg (by exact Bool.false_ne_true)]
  have hmk2 : ((enumF 0 rows).filter (fun q => sameKeyB u s q.2)).filter
      (fun q => isMarker q.2.team) = [m] := hmk
  rw [hmk2]
  simp only [List.getLast?_singleton]
  by_cases hpm : p.1 = m.1
  · have hpeq : p = m := enumF_fst_unique 0 rows p m (List.mem_of_mem_filter hp)
      (List.mem_of_mem_filter hm_mem) hpm
    rw [if_pos (beq_iff_eq.mpr hpm), if_pos hpm, hpeq]
    rfl
  · have hb : ¬((p.1 == m.1) = true) := by
      simp only [beq_iff_eq]
      exact hpm
    rw [if_neg hb, if_neg hpm]

/-- C1 (amended, witness): the `2TM / LAL / BOS` group collapses to the
single marker row rewritten to `"2TM (BOS, LAL)"` (teams sorted and
deduplicated). -/
theorem collapse_marker_group_amended_witness :
    (handle_multi_team_players
        [CRow.mk none (some "u1") "2021" (some "2TM"),
         CRow.mk none (some "u1") "2021" (some "LAL"),
         CRow.mk none (some "u1") "2021" (some "BOS")]).filter (sameKeyB "u1" "2021")
      = [CRow.mk none (some "u1") "2021" (some "2TM (BOS, LAL)")] := by
  have h := collapse_marker_group_amended
    [CRow.mk none (some "u1") "2021" (some "2TM"),
     CRow.mk none (some "u1") "2021" (some "LAL"),
     CRow.mk none (some "u1") "2021" (some "BOS")]
    "u1" "2021"
    (0, CRow.mk none (some "u1") "2021" (some "2TM"))
    (by decide) (by decide)
  exact h.trans (by decide)

theorem collapseStep_in_group (rows : List CRow) (u s : String) (p : Nat × CRow)
    (hp : p ∈ keyGroup rows u s) :
    collapseStep (enumF 0 rows) p
      = (if (keyGroup rows u s).length == 1 then some p.2
         else
           match ((keyGroup rows u s).filter (fun q => isMarker q.2.team)).getLast? with
           | some tm =>
             if p.1 == tm.1
             then some (rewriteRow p.2 ((keyGroup rows u s).map Prod.snd))
             else none
           | none =>
             match (keyGroup rows u s).head? with
             | some h2 => if p.1 == h2.1 then some p.2 else none
             | none => none) := by
  have hpf := List.mem_filter.mp hp
  have hand := (Bool.and_eq_true _ _).mp hpf.2
  have hu : p.2.url = some u := eq_of_beq hand.1
  have hs2 : p.2.season = s := eq_of_beq hand.2
  rw [collapseStep_some_u (enumF 0 rows) p u hu, hs2]
  rfl

theorem filterMap_eq_map_snd (f : Nat × CRow → Option CRow) :
    ∀ l : List (Nat × CRow), (∀ p ∈ l, f p = some p.2) →
      l.filterMap f = l.map Prod.snd := by
  intro l
  induction l with
  | nil => intro _; rfl
  | cons a t ih =>
    intro h
    have e : List.filterMap f (a :: t) = a.2 :: List.filterMap f t := by
      rw [List.filterMap_cons, h a (List.mem_cons_self a t)]
    rw [e, ih (fun p hp => h p (List.mem_cons_of_mem a hp)), List.map_cons]

theorem mem_of_head?_eq (l : List (Nat × CRow)) (a : Nat × CRow)
    (h : l.head? = some a) : a ∈ l := by
  cases l with
  | nil => exact Option.noConfusion h
  | cons x t =>
    obtain rfl := Option.some.inj h
    exact List.mem_cons_self x t

/-! ## Claim C2 — one output row per key -/

/-- C2 (counterexample): two rows sharing the key `(null, 2021)`.
Pandas `groupby` drops null keys, so neither row is collapsed: the
output keeps both rows, not exactly one per distinct key. -/
theorem collapse_key_uniqueness_counterexample :
    handle_multi_team_players
        [CRow.mk none none "2021" (some "A"), CRow.mk none none "2021" (some "B")]
      = [CRow.mk none none "2021" (some "A"), CRow.mk none none "2021" (some "B")]
      ∧ ((handle_multi_team_players
            [CRow.mk none none "2021" (some "A"),
             CRow.mk none none "2021" (some "B")]).filter
          (fun r => r.url == none && r.season == "2021")).length = 2
      ∧ (2 : Nat) ≠ 1 := by
  decide

/-- C2 (amended): the collapser produces exactly one output row per
distinct non-null `(identifier, period)` key present in the input, every
output row's identifier and period occur on some input row, and rows
with a null identifier pass through unchanged (all of them — they are
not collapsed). -/
theorem collapse_key_uniqueness_amended (rows : List CRow) :
    (∀ u s, rows.filter (sameKeyB u s) ≠ [] →
      ((handle_multi_team_players rows).filter (sameKeyB u s)).length = 1)
    ∧ (∀ r ∈ handle_multi_team_players rows,
        ∃ p ∈ rows, r.url = p.url ∧ r.season = p.season)
    ∧ (handle_multi_team_players rows).filter (fun r => r.url == none)
        = rows.filter (fun r => r.url == none) := by
  refine ⟨?_, ?_, ?_⟩
  · intro u s hne
    rw [collapse_filter_key]
    have hGne : keyGroup rows u s ≠ [] := by
      intro h0
      apply hne
      have hms := enumF_filter_map_snd (sameKeyB u s) 0 rows
      have h0' : (enumF 0 rows).filter (fun p => sameKeyB u s p.2) = [] := h0
      rw [← hms, h0']
      rfl
    by_cases hlen1 : (keyGroup rows u s).length = 1
    · obtain ⟨a, ha⟩ := List.length_eq_one.mp hlen1
      have hmem_a : a ∈ keyGroup rows u s := by
        rw [ha]
        exact List.mem_cons_self a []
      have hstep : collapseStep (enumF 0 rows) a = some a.2 := by
        rw [collapseStep_in_group rows u s a hmem_a,
          show ((keyGroup rows u s).length == 1) = true by rw [hlen1]; rfl,
          if_pos rfl]
      rw [ha, List.filterMap_cons, hstep]
      rfl
    · have hlen2 : 2 ≤ (keyGroup rows u s).length := by
        have hpos : 0 < (keyGroup rows u s).length := List.length_pos.mpr hGne
        omega
      have hne1 : ((keyGroup rows u s).length == 1) = false := by
        apply beq_eq_false_iff_ne.mpr
        omega
      cases hml : ((keyGroup rows u s).filter (fun q => isMarker q.2.team)).getLast? with
      | some tm =>
        have htm_mem : tm ∈ keyGroup rows u s := by
          obtain ⟨ys, hys⟩ := List.getLast?_eq_some_iff.mp hml
          have h1 : tm ∈ (keyGroup rows u s).filter (fun q => isMarker q.2.team) := by
            rw [hys]
            exact List.mem_append_right ys (List.mem_cons_self tm [])
          exact List.mem_of_mem_filter h1
        have hall : ∀ p ∈ keyGroup rows u s,
            collapseStep (enumF 0 rows) p
              = if p.1 = tm.1
                then some (rewriteRow tm.2 ((keyGroup rows u s).map Prod.snd))
                else none := by
          intro p hp
          rw [collapseStep_in_group rows u s p hp, hne1,
            if_neg (by exact Bool.false_ne_true), hml]
          show (if p.1 == tm.1
              then some (rewriteRow p.2 ((keyGroup rows u s).map Prod.snd))
              else none) = _
          by_cases hpm : p.1 = tm.1
          · rw [if_pos (beq_iff_eq.mpr hpm), if_pos hpm,
              enumF_fst_unique 0 rows p tm (List.mem_of_mem_filter hp)
                (List.mem_of_mem_filter htm_mem) hpm]
          · rw [if_neg (by simp only [beq_iff_eq]; exact hpm), if_neg hpm]
        rw [filterMap_singleton_of_key tm.1 (collapseStep (enumF 0 rows))
          (rewriteRow tm.2 ((keyGroup rows u s).map Prod.snd)) (keyGroup rows u s)
          hall (keyGroup_fst_nodup rows u s) ⟨tm, htm_mem, rfl⟩]
        rfl
      | none =>
        cases hh : (keyGroup rows u s).head? with
        | none => exact absurd (List.head?_eq_none_iff.mp hh) hGne
        | some h0 =>
          have hh0_mem : h0 ∈ keyGroup rows u s := mem_of_head?_eq _ h0 hh
          have hall : ∀ p ∈ keyGroup rows u s,
              collapseStep (enumF 0 rows) p
                = if p.1 = h0.1 then some h0.2 else none := by
            intro p hp
            rw [collapseStep_in_group rows u s p hp, hne1,
              if_neg (by exact Bool.false_ne_true), hml, hh]
            show (if p.1 == h0.1 then some p.2 else none) = _
            by_cases hpm : p.1 = h0.1
            · rw [if_pos (beq_iff_eq.mpr hpm), if_pos hpm,
                enumF_fst_unique 0 rows p h0 (List.mem_of_mem_filter hp)
                  (List.mem_of_mem_filter hh0_mem) hpm]
            · rw [if_neg (by simp only [beq_iff_eq]; exact hpm), if_neg hpm]
          rw [filterMap_singleton_of_key h0.1 (collapseStep (enumF 0 rows)) h0.2
            (keyGroup rows u s) hall (keyGroup_fst_nodup rows u s) ⟨h0, hh0_mem, rfl⟩]
          rfl
  · intro r hr
    obtain ⟨p, hp, hf⟩ := List.mem_filterMap.mp hr
    obtain ⟨h1, h2, -⟩ := collapseStep_pres (enumF 0 rows) p r hf
    have hp2 : p.2 ∈ rows := by
      obtain ⟨k, -, hg⟩ := enumF_mem 0 rows hp
      exact List.get?_mem hg
    exact ⟨p.2, hp2, h1, h2⟩
  · unfold handle_multi_team_players
    rw [filterMap_filter_comm (collapseStep (enumF 0 rows)) (fun r => r.url == none)
      (enumF 0 rows)
      (fun p r _ hf => by
        obtain ⟨h1, -, -⟩ := collapseStep_pres (enumF 0 rows) p r hf
        show (r.url == none) = (p.2.url == none)
        rw [h1])]
    rw [filterMap_eq_map_snd (collapseStep (enumF 0 rows))
      ((enumF 0 rows).filter (fun p => p.2.url == none))
      (fun p hp => collapseStep_none (enumF 0 rows) p
        (by
          have h := List.of_mem_filter (p := fun p : Nat × CRow => p.2.url == none) hp
          exact eq_of_beq h))]
    exact enumF_filter_map_snd (fun r => r.url == none) 0 rows

/-- C2 (amended, witness): a two-row group under the key
`(u1, 2021)` (no marker) collapses to exactly one output row. -/
theorem collapse_key_uniqueness_amended_witness :
    ((handle_multi_team_players
        [CRow.mk none (some "u1") "2021" (some "BOS"),
         CRow.mk none (some "u1") "2021" (some "LAL")]).filter
      (sameKeyB "u1" "2021")).length = 1 :=
  (collapse_key_uniqueness_amended
    [CRow.mk none (some "u1") "2021" (some "BOS"),
     CRow.mk none (some "u1") "2021" (some "LAL")]).1 "u1" "2021" (by decide)

/-! ## Claim C10 — no League Average row survives the merge -/

theorem mem_collapse_player (rows : List CRow) (r : CRow)
    (hr : r ∈ handle_multi_team_players rows) : ∃ p ∈ rows, r.player = p.player := by
  obtain ⟨p, hp, hf⟩ := List.mem_filterMap.mp hr
  obtain ⟨-, -, h3⟩ := collapseStep_pres (enumF 0 rows) p r hf
  obtain ⟨k, -, hg⟩ := enumF_mem 0 rows hp
  exact ⟨p.2, List.get?_mem hg, h3⟩

theorem innerJoin_fst_mem :
    ∀ (A B : List CRow) (pr : CRow × CRow), pr ∈ innerJoin A B → pr.1 ∈ A := by
  intro A
  induction A with
  | nil => intro B pr h; exact absurd h (List.not_mem_nil pr)
  | cons a as ih =>
    intro B pr h
    rcases List.mem_append.mp h with h2 | h2
    · obtain ⟨b, -, he⟩ := List.mem_map.mp h2
      obtain rfl := he
      exact List.mem_cons_self a as
    · exact List.mem_cons_of_mem a (ih B pr h2)

/-- C10: the Merger removes every `'League Average'` row from both
inputs before joining, so no row of the merged (and then collapsed)
output has `Player = 'League Average'`. -/
theorem merged_no_league_average (A B : List CRow) (r : CRow)
    (h : r ∈ merge_per_game_and_advanced A B) : r.player ≠ some "League Average" := by
  unfold merge_per_game_and_advanced at h
  obtain ⟨p, hp, hpl⟩ := mem_collapse_player _ r h
  obtain ⟨pr, hpr, hpre⟩ := List.mem_map.mp hp
  have h1 : pr.1 ∈ remove_league_average A := innerJoin_fst_mem _ _ pr hpr
  have h2 := List.of_mem_filter
    (p := fun r : CRow => r.player != some "League Average") h1
  rw [hpl, ← hpre]
  exact bne_iff_ne.mp h2

/-- C10 (witness): a concrete merged row keeps its non-`League Average`
player name. -/
theorem merged_no_league_average_witness :
    (CRow.mk (some "P") (some "u1") "2021" (some "BOS")).player
      ≠ some "League Average" :=
  merged_no_league_average
    [CRow.mk (some "P") (some "u1") "2021" (some "BOS")]
    [CRow.mk (some "P") (some "u1") "2021" (some "BOS")]
    (CRow.mk (some "P") (some "u1") "2021" (some "BOS"))
    (by decide)
